import Mathlib

/-!
Verification of the hybrid result merger (`opendataloader_pdf/hybrid/merge/merger.py`).

The Python module is a pure data transform over JSON-shaped dictionaries.  We
embed it shallowly:

* JSON content elements become the structure `Element`; a field that may be
  absent from the dict is an `Option`.  Element payload text (`content`) is
  kept so that distinct elements stay distinguishable.
* Python dicts keyed by `int` become association lists `List (Int × β)` with
  first-match lookup (`alookup`), insert-with-overwrite (`dinsert`) and
  append-to-bucket (`dappend`) mirroring the dict operations the source uses.
  Keys built by these operations are unique, exactly as in a Python dict.
* Python truthiness of a dict (`if document_info:`) is carried as an explicit
  `truthy` flag on the structures that model whole JSON documents, because the
  source branches on it; an empty dict is falsy even when "supplied".
* `sorted(...)` (Timsort) is modelled by `List.insertionSort`: both are stable
  sorts for a total preorder, and a stable sort's output is unique, so they
  are the same function on every input.
-/

/-- A content element as the merger sees it: the four dict fields the merger
reads or writes, plus the free-text payload carried along unchanged. -/
structure Element where
  pageNumber : Option Int
  boundingBox : Option (List ℚ)
  id : Option Int
  content : Option String
deriving DecidableEq

/-- First-match lookup in an association list, the model of `d[k]` / `k in d`
for a Python dict with unique keys. -/
def alookup {β : Type} (k : Int) : List (Int × β) → Option β
  | [] => none
  | (k', v) :: rest => if k' = k then some v else alookup k rest

/-- `d[k] = v`: overwrite in place when the key exists, else append.  This is
exactly a Python dict assignment's effect on the key order. -/
def dinsert {β : Type} (k : Int) (v : β) : List (Int × β) → List (Int × β)
  | [] => [(k, v)]
  | (k', v') :: rest => if k' = k then (k, v) :: rest else (k', v') :: dinsert k v rest

/-- `d.setdefault(k, []).append(e)`: append `v` to the bucket at `k`,
creating the bucket when missing (source lines 186-188). -/
def dappend {β : Type} (k : Int) (v : β) : List (Int × List β) → List (Int × List β)
  | [] => [(k, [v])]
  | (k', vs) :: rest => if k' = k then (k, vs ++ [v]) :: rest else (k', vs) :: dappend k v rest

/-- One entry of `triage.json`'s `"pages"` list. -/
structure PageInfo where
  page : Option Int
  path : Option String
deriving DecidableEq

/-- The loaded `triage.json` dict: its Python truthiness and its `"pages"`
key (absent key modelled as `none`). -/
structure Triage where
  truthy : Bool
  pages : Option (List PageInfo)
deriving DecidableEq

/-- The loaded `all_pages.json` dict: truthiness, the six metadata fields and
the `"kids"` list.  A `none` field is an absent key. -/
structure AllPages where
  truthy : Bool
  fileName : Option String
  numberOfPages : Option Int
  author : Option String
  title : Option String
  creationDate : Option String
  modificationDate : Option String
  kids : Option (List Element)
deriving DecidableEq

/-- The optional `document_info` dict passed to `merge`. -/
structure DocInfo where
  truthy : Bool
  fileName : Option String
  numberOfPages : Option Int
  author : Option String
  title : Option String
  creationDate : Option String
  modificationDate : Option String
deriving DecidableEq

/-- One value of the `ai_results` mapping: `{"elements": [...]}` with the
`"elements"` key possibly absent. -/
structure AiResult where
  elements : Option (List Element)
deriving DecidableEq

/-- `ai_result.get("elements", [])`. -/
def aiElementsOf (r : AiResult) : List Element := r.elements.getD []

/-- `_build_page_routing` (source lines 106-118): fold the triage page list
into a page-number-to-path dict, later entries overwriting earlier ones. -/
def buildPageRouting (triage : Option Triage) : List (Int × String) :=
  match triage with
  | some t =>
    if t.truthy then
      match t.pages with
      | some ps => ps.foldl (fun m pi => dinsert (pi.page.getD 0) (pi.path.getD "fast") m) []
      | none => []
    else []
  | none => []

/-- The grouping loop of `_merge_elements` (source lines 182-188): bucket the
fast-path kids by their `"page number"` field, default page 1. -/
def groupKidsByPage (kids : List Element) : List (Int × List Element) :=
  kids.foldl (fun m e => dappend (e.pageNumber.getD 1) e m) []

/-- The guard `if self._all_pages and "kids" in self._all_pages:` around the
grouping loop. -/
def jarByPageOf (allPages : Option AllPages) : List (Int × List Element) :=
  match allPages with
  | some ap =>
    if ap.truthy then
      match ap.kids with
      | some ks => groupKidsByPage ks
      | none => []
    else []
  | none => []

/-- The candidate-page computation of `_merge_elements` (source lines
190-195): the sorted set-union of routing keys, fast-path page keys, and
AI keys shifted from 0-indexed to 1-indexed. -/
def candidatePages (routingKeys jarKeys aiKeys : List Int) : List Int :=
  List.insertionSort (fun a b => a ≤ b) ((routingKeys ++ jarKeys ++ aiKeys.map (· + 1)).dedup)

/-- The per-page loop body of `_merge_elements` (source lines 195-217),
mirrored as structural recursion over the candidate-page list.  The first
component is the accumulated `elements` list; the second records the pages
for which `logger.warning` fired (the missing-AI-result branch). -/
def mergeLoop (routing : List (Int × String)) (jarByPage : List (Int × List Element))
    (aiResults : List (Int × AiResult)) : List Int → List Element × List Int
  | [] => ([], [])
  | p :: ps =>
    let rest := mergeLoop routing jarByPage aiResults ps
    if (alookup p routing).getD "fast" = "ai" then
      match alookup (p - 1) aiResults with
      | some r =>
        (((aiElementsOf r).map fun e => { e with pageNumber := some p }) ++ rest.1, rest.2)
      | none => ((alookup p jarByPage).getD [] ++ rest.1, p :: rest.2)
    else ((alookup p jarByPage).getD [] ++ rest.1, rest.2)

/-- `_merge_elements` (source lines 162-217): group, take the page union,
then run the per-page loop. -/
def mergeElements (routing : List (Int × String)) (allPages : Option AllPages)
    (aiResults : List (Int × AiResult)) : List Element × List Int :=
  let jar := jarByPageOf allPages
  mergeLoop routing jar aiResults
    (candidatePages (routing.map Prod.fst) (jar.map Prod.fst) (aiResults.map Prod.fst))

/-- What one candidate page contributes to the merged list: the case split of
the loop body, stated as a function of the page so the loop's output can be
described as a concatenation over pages. -/
def pageContribution (routing : List (Int × String)) (jarByPage : List (Int × List Element))
    (aiResults : List (Int × AiResult)) (p : Int) : List Element :=
  if (alookup p routing).getD "fast" = "ai" then
    match alookup (p - 1) aiResults with
    | some r => (aiElementsOf r).map fun e => { e with pageNumber := some p }
    | none => (alookup p jarByPage).getD []
  else (alookup p jarByPage).getD []

/-- Whether the loop logs the missing-AI-result warning for page `p`. -/
def pageWarns (routing : List (Int × String)) (aiResults : List (Int × AiResult)) (p : Int) : Bool :=
  ((alookup p routing).getD "fast" = "ai") ∧ (alookup (p - 1) aiResults).isNone

/-- The sort key of `_sort_elements` (source lines 228-234): page number
(default 1), then `bbox[1]`, then `bbox[0]`, a missing box or coordinate
contributing 0, compared lexicographically as a Python tuple. -/
def sortKey (e : Element) : Lex (Int × Lex (ℚ × ℚ)) :=
  let bbox := e.boundingBox.getD [0, 0, 0, 0]
  toLex (e.pageNumber.getD 1, toLex (bbox.getD 1 0, bbox.getD 0 0))

/-- The comparison `sorted` uses on the keys. -/
def elemLE (a b : Element) : Prop := sortKey a ≤ sortKey b

instance : DecidableRel elemLE := fun a b => inferInstanceAs (Decidable (sortKey a ≤ sortKey b))

instance : IsTotal Element elemLE := ⟨fun a b => le_total (sortKey a) (sortKey b)⟩

instance : IsTrans Element elemLE := ⟨fun _ _ _ h1 h2 => le_trans h1 h2⟩

instance : IsRefl Element elemLE := ⟨fun a => le_refl (sortKey a)⟩

/-- `_sort_elements` (source lines 219-236): Python's stable `sorted` by
`sortKey`, modelled by the stable `insertionSort`. -/
def sortElements (l : List Element) : List Element := List.insertionSort elemLE l

/-- The loop of `_assign_ids` with an explicit running counter. -/
def assignIdsFrom (i : Int) : List Element → List Element
  | [] => []
  | e :: es => { e with id := some i } :: assignIdsFrom (i + 1) es

/-- `_assign_ids` (source lines 238-249): `enumerate(elements, start=1)`
stamping each element's `id`. -/
def assignIds (l : List Element) : List Element := assignIdsFrom 1 l

-- Basic facts about the association-list dict model.

theorem alookup_dinsert_self {β : Type} (k : Int) (v : β) (m : List (Int × β)) :
    alookup k (dinsert k v m) = some v := by
  induction m with
  | nil => simp [alookup, dinsert]
  | cons hd tl ih =>
    obtain ⟨k', v'⟩ := hd
    by_cases h : k' = k <;> simp [alookup, dinsert, h, ih]

theorem alookup_dinsert_ne {β : Type} (k k' : Int) (v : β) (m : List (Int × β))
    (h : k' ≠ k) : alookup k' (dinsert k v m) = alookup k' m := by
  induction m with
  | nil => simp [alookup, dinsert, Ne.symm h]
  | cons hd tl ih =>
    obtain ⟨k₀, v₀⟩ := hd
    by_cases h0 : k₀ = k
    · subst h0
      simp [alookup, dinsert, Ne.symm h]
    · simp only [dinsert, if_neg h0]
      by_cases h1 : k₀ = k' <;> simp [alookup, h1, ih]

theorem mem_keys_dinsert {β : Type} (k x : Int) (v : β) (m : List (Int × β)) :
    x ∈ (dinsert k v m).map Prod.fst ↔ x = k ∨ x ∈ m.map Prod.fst := by
  induction m with
  | nil => simp [dinsert]
  | cons hd tl ih =>
    obtain ⟨k₀, v₀⟩ := hd
    by_cases h0 : k₀ = k
    · subst h0
      simp [dinsert]
    · simp [dinsert, h0, ih]
      tauto

theorem keys_nodup_dinsert {β : Type} (k : Int) (v : β) (m : List (Int × β))
    (h : (m.map Prod.fst).Nodup) : ((dinsert k v m).map Prod.fst).Nodup := by
  induction m with
  | nil => simp [dinsert]
  | cons hd tl ih =>
    obtain ⟨k₀, v₀⟩ := hd
    simp only [List.map_cons, List.nodup_cons] at h
    by_cases h0 : k₀ = k
    · subst h0
      simpa [dinsert] using h
    · simp only [dinsert, if_neg h0, List.map_cons, List.nodup_cons]
      refine ⟨fun hc => ?_, ih h.2⟩
      rcases (mem_keys_dinsert k k₀ v tl).1 hc with h1 | h1
      · exact h0 h1
      · exact h.1 h1

theorem mem_keys_of_alookup {β : Type} {m : List (Int × β)} {p : Int} {v : β}
    (h : alookup p m = some v) : p ∈ m.map Prod.fst := by
  induction m with
  | nil => simp [alookup] at h
  | cons hd tl ih =>
    obtain ⟨k₀, v₀⟩ := hd
    by_cases h0 : k₀ = p
    · simp [h0]
    · simp only [alookup, if_neg h0] at h
      simp [ih h]

theorem alookup_dappend_self {β : Type} (k : Int) (v : β) (m : List (Int × List β)) :
    alookup k (dappend k v m) = some ((alookup k m).getD [] ++ [v]) := by
  induction m with
  | nil => simp [alookup, dappend]
  | cons hd tl ih =>
    obtain ⟨k₀, v₀⟩ := hd
    by_cases h0 : k₀ = k <;> simp [alookup, dappend, h0, ih]

theorem alookup_dappend_ne {β : Type} (k p : Int) (v : β) (m : List (Int × List β))
    (h : p ≠ k) : alookup p (dappend k v m) = alookup p m := by
  induction m with
  | nil => simp [alookup, dappend, Ne.symm h]
  | cons hd tl ih =>
    obtain ⟨k₀, v₀⟩ := hd
    by_cases h0 : k₀ = k
    · subst h0
      simp [alookup, dappend, Ne.symm h]
    · simp only [dappend, if_neg h0]
      by_cases h1 : k₀ = p <;> simp [alookup, h1, ih]

/-- The bucket that `groupKidsByPage` stores at page `p` is exactly the
sublist of kids whose own `"page number"` field (default 1) is `p`. -/
theorem groupKidsByPage_lookup (ks : List Element) (p : Int) :
    (alookup p (groupKidsByPage ks)).getD [] =
      ks.filter (fun e => e.pageNumber.getD 1 == p) := by
  suffices h : ∀ acc : List (Int × List Element),
      (alookup p (ks.foldl (fun m e => dappend (e.pageNumber.getD 1) e m) acc)).getD [] =
        (alookup p acc).getD [] ++ ks.filter (fun e => e.pageNumber.getD 1 == p) by
    simpa [alookup, groupKidsByPage] using h []
  induction ks with
  | nil => simp
  | cons e ks ih =>
    intro acc
    by_cases hk : e.pageNumber.getD 1 = p
    · simp only [List.foldl_cons, ih, List.filter_cons, hk, beq_self_eq_true, if_pos]
      rw [alookup_dappend_self]
      simp
    · simp only [List.foldl_cons, ih, List.filter_cons]
      rw [alookup_dappend_ne _ _ _ _ (Ne.symm hk)]
      simp [hk]

/-- Denotation of the `_merge_elements` loop: the element list is the
page-ordered concatenation of per-page contributions, and the warning log
holds exactly the pages whose AI result was missing. -/
theorem mergeLoop_eq (routing : List (Int × String)) (jar : List (Int × List Element))
    (ai : List (Int × AiResult)) (ps : List Int) :
    mergeLoop routing jar ai ps =
      (ps.flatMap (pageContribution routing jar ai), ps.filter (pageWarns routing ai)) := by
  induction ps with
  | nil => rfl
  | cons p ps ih =>
    by_cases h : (alookup p routing).getD "fast" = "ai"
    · cases hai : alookup (p - 1) ai with
      | some r =>
        simp [mergeLoop, ih, pageContribution, pageWarns, h, hai]
      | none =>
        simp [mergeLoop, ih, pageContribution, pageWarns, h, hai]
    · simp [mergeLoop, ih, pageContribution, pageWarns, h]

theorem mem_candidatePages (rk jk ak : List Int) (p : Int) :
    p ∈ candidatePages rk jk ak ↔ p ∈ rk ∨ p ∈ jk ∨ ∃ q ∈ ak, p = q + 1 := by
  simp only [candidatePages, List.mem_insertionSort, List.mem_dedup, List.mem_append,
    List.mem_map]
  constructor
  · rintro ((h | h) | ⟨q, hq, rfl⟩)
    · exact Or.inl h
    · exact Or.inr (Or.inl h)
    · exact Or.inr (Or.inr ⟨q, hq, rfl⟩)
  · rintro (h | h | ⟨q, hq, rfl⟩)
    · exact Or.inl (Or.inl h)
    · exact Or.inl (Or.inr h)
    · exact Or.inr ⟨q, hq, rfl⟩

theorem candidatePages_sorted (rk jk ak : List Int) :
    List.Sorted (fun a b : Int => a < b) (candidatePages rk jk ak) := by
  have hle : List.Sorted (fun a b : Int => a ≤ b) (candidatePages rk jk ak) :=
    List.sorted_insertionSort _ _
  have hnd : (candidatePages rk jk ak).Nodup :=
    (List.perm_insertionSort _ _).nodup_iff.mpr (List.nodup_dedup _)
  exact List.Sorted.lt_of_le hle hnd

/-- The merged document's metadata header (the six fields of `_init_result`)
together with the `kids` list. -/
structure MergeResult where
  fileName : String
  numberOfPages : Int
  author : Option String
  title : Option String
  creationDate : Option String
  modificationDate : Option String
  kids : List Element
deriving DecidableEq

/-- The `else` half of `_init_result` (source lines 140-160): fall back to
the fast-path metadata when that dict is truthy, else all-empty defaults. -/
def initResultNoInfo (allPages : Option AllPages) : MergeResult :=
  match allPages with
  | some ap =>
    if ap.truthy then
      { fileName := ap.fileName.getD "", numberOfPages := ap.numberOfPages.getD 0,
        author := ap.author, title := ap.title, creationDate := ap.creationDate,
        modificationDate := ap.modificationDate, kids := [] }
    else
      { fileName := "", numberOfPages := 0, author := none, title := none,
        creationDate := none, modificationDate := none, kids := [] }
  | none =>
    { fileName := "", numberOfPages := 0, author := none, title := none,
      creationDate := none, modificationDate := none, kids := [] }

/-- `_init_result` (source lines 120-160).  `if document_info:` is Python
truthiness: a supplied empty dict falls through to the fast-path branch. -/
def initResult (documentInfo : Option DocInfo) (allPages : Option AllPages) : MergeResult :=
  match documentInfo with
  | some d =>
    if d.truthy then
      { fileName := d.fileName.getD "", numberOfPages := d.numberOfPages.getD 0,
        author := d.author, title := d.title, creationDate := d.creationDate,
        modificationDate := d.modificationDate, kids := [] }
    else initResultNoInfo allPages
  | none => initResultNoInfo allPages

/-- `merge` (source lines 64-104), after the two loads: build the routing
table, initialise the metadata, merge, sort, stamp IDs.  The second
component is the warning log of the merge loop. -/
def merge (triage : Option Triage) (allPages : Option AllPages)
    (aiResults : List (Int × AiResult)) (documentInfo : Option DocInfo) :
    MergeResult × List Int :=
  let routing := buildPageRouting triage
  let em := mergeElements routing allPages aiResults
  ({ initResult documentInfo allPages with kids := assignIds (sortElements em.1) }, em.2)

-- Shared concrete example (the mixed-paths scenario of the spec, plus an
-- AI-routed page 4 whose AI result is missing).

def exF1 : Element := ⟨some 1, some [0, 0, 100, 20], none, some "Fast page 1"⟩

def exF3 : Element := ⟨some 3, some [0, 0, 100, 20], none, some "Fast page 3"⟩

def exA2 : Element := ⟨none, some [0, 0, 100, 20], none, some "AI page 2"⟩

def exRouting : List (Int × String) := [(1, "fast"), (2, "ai"), (3, "fast"), (4, "ai")]

def exAllPages : AllPages :=
  ⟨true, some "test.pdf", some 4, none, none, none, none, some [exF1, exF3]⟩

def exAi : List (Int × AiResult) := [(1, ⟨some [exA2]⟩)]

/-- C1: per-page source selection is exclusive.  The merged list is the
page-ordered concatenation of one contribution per candidate page; a page
routed `"ai"` whose AI result is present contributes exactly that AI
result's elements (page-stamped) and nothing from the fast-path bucket; a
page not routed `"ai"` contributes exactly its fast-path bucket; and every
page's contribution comes from one source or the other, never a mixture. -/
theorem c1_per_page_source_exclusivity (routing : List (Int × String))
    (allPages : Option AllPages) (aiResults : List (Int × AiResult)) :
    (mergeElements routing allPages aiResults).1 =
      (candidatePages (routing.map Prod.fst) ((jarByPageOf allPages).map Prod.fst)
        (aiResults.map Prod.fst)).flatMap
        (pageContribution routing (jarByPageOf allPages) aiResults)
    ∧ (∀ p r, (alookup p routing).getD "fast" = "ai" → alookup (p - 1) aiResults = some r →
        pageContribution routing (jarByPageOf allPages) aiResults p =
          (aiElementsOf r).map fun e => { e with pageNumber := some p })
    ∧ (∀ p, (alookup p routing).getD "fast" ≠ "ai" →
        pageContribution routing (jarByPageOf allPages) aiResults p =
          (alookup p (jarByPageOf allPages)).getD [])
    ∧ (∀ p, (∃ r, alookup (p - 1) aiResults = some r ∧
          pageContribution routing (jarByPageOf allPages) aiResults p =
            (aiElementsOf r).map fun e => { e with pageNumber := some p }) ∨
        pageContribution routing (jarByPageOf allPages) aiResults p =
          (alookup p (jarByPageOf allPages)).getD []) := by
  refine ⟨?_, ?_, ?_, ?_⟩
  · simp [mergeElements, mergeLoop_eq]
  · intro p r h hr
    simp [pageContribution, h, hr]
  · intro p h
    simp [pageContribution, h]
  · intro p
    by_cases h : (alookup p routing).getD "fast" = "ai"
    · cases hr : alookup (p - 1) aiResults with
      | some r => exact Or.inl ⟨r, rfl, by simp [pageContribution, h, hr]⟩
      | none => exact Or.inr (by simp [pageContribution, h, hr])
    · exact Or.inr (by simp [pageContribution, h])

theorem c1_witness :
    ((alookup 2 exRouting).getD "fast" = "ai"
        ∧ alookup (2 - 1) exAi = some ⟨some [exA2]⟩) ∧
    pageContribution exRouting (jarByPageOf (some exAllPages)) exAi 2 =
      [{ exA2 with pageNumber := some 2 }] ∧
    pageContribution exRouting (jarByPageOf (some exAllPages)) exAi 1 =
      (alookup 1 (jarByPageOf (some exAllPages))).getD [] := by
  have h := c1_per_page_source_exclusivity exRouting (some exAllPages) exAi
  refine ⟨⟨by decide, by decide⟩, ?_, h.2.2.1 1 (by decide)⟩
  have h2 := h.2.1 2 ⟨some [exA2]⟩ (by decide) (by decide)
  simpa [aiElementsOf, exA2] using h2

/-- C2: degraded fallback.  For a page routed `"ai"` whose AI result is
absent at key `p - 1`, the page contributes its fast-path bucket (empty when
the fast source has none), that contribution is a sublist of the merged
output, and the warning log records the page; the model is a total function,
so no exception is possible. -/
theorem c2_missing_ai_fallback (routing : List (Int × String)) (allPages : Option AllPages)
    (aiResults : List (Int × AiResult)) (p : Int)
    (hroute : (alookup p routing).getD "fast" = "ai")
    (hmiss : alookup (p - 1) aiResults = none) :
    pageContribution routing (jarByPageOf allPages) aiResults p =
      (alookup p (jarByPageOf allPages)).getD []
    ∧ (pageContribution routing (jarByPageOf allPages) aiResults p).Sublist
        (mergeElements routing allPages aiResults).1
    ∧ p ∈ (mergeElements routing allPages aiResults).2 := by
  have hsome : alookup p routing = some "ai" := by
    cases hl : alookup p routing with
    | none => rw [hl] at hroute; simp at hroute
    | some s =>
      rw [hl] at hroute
      simp only [Option.getD_some] at hroute
      rw [hroute]
  have hmem : p ∈ candidatePages (routing.map Prod.fst)
      ((jarByPageOf allPages).map Prod.fst) (aiResults.map Prod.fst) :=
    (mem_candidatePages _ _ _ p).2 (Or.inl (mem_keys_of_alookup hsome))
  refine ⟨by simp [pageContribution, hroute, hmiss], ?_, ?_⟩
  · rw [show (mergeElements routing allPages aiResults).1 =
        (candidatePages (routing.map Prod.fst) ((jarByPageOf allPages).map Prod.fst)
          (aiResults.map Prod.fst)).flatMap
          (pageContribution routing (jarByPageOf allPages) aiResults) by
      simp [mergeElements, mergeLoop_eq]]
    rw [List.flatMap_def]
    exact List.sublist_flatten_of_mem (List.mem_map_of_mem _ hmem)
  · have hw : pageWarns routing aiResults p = true := by
      simp [pageWarns, hroute, hmiss]
    have : (mergeElements routing allPages aiResults).2 =
        (candidatePages (routing.map Prod.fst) ((jarByPageOf allPages).map Prod.fst)
          (aiResults.map Prod.fst)).filter (pageWarns routing aiResults) := by
      simp [mergeElements, mergeLoop_eq]
    rw [this]
    exact List.mem_filter.2 ⟨hmem, hw⟩

theorem c2_witness :
    (((alookup 4 exRouting).getD "fast" = "ai") ∧ alookup (4 - 1) exAi = none) ∧
    pageContribution exRouting (jarByPageOf (some exAllPages)) exAi 4 =
      (alookup 4 (jarByPageOf (some exAllPages))).getD [] ∧
    4 ∈ (mergeElements exRouting (some exAllPages) exAi).2 := by
  have h := c2_missing_ai_fallback exRouting (some exAllPages) exAi 4 (by decide) (by decide)
  exact ⟨⟨by decide, by decide⟩, h.1, h.2.2⟩

/-- C3: the loop visits exactly the sorted union of routing pages, fast-path
pages and 1-indexed AI pages, in strictly ascending order; the merged list is
the concatenation of contributions over that list, so every candidate page's
selected-source content appears in the output. -/
theorem c3_candidate_union_and_order (routing : List (Int × String))
    (allPages : Option AllPages) (aiResults : List (Int × AiResult)) :
    List.Sorted (fun a b : Int => a < b)
      (candidatePages (routing.map Prod.fst) ((jarByPageOf allPages).map Prod.fst)
        (aiResults.map Prod.fst))
    ∧ (∀ p, p ∈ candidatePages (routing.map Prod.fst)
          ((jarByPageOf allPages).map Prod.fst) (aiResults.map Prod.fst) ↔
        p ∈ routing.map Prod.fst ∨ p ∈ (jarByPageOf allPages).map Prod.fst ∨
          ∃ q ∈ aiResults.map Prod.fst, p = q + 1)
    ∧ (mergeElements routing allPages aiResults).1 =
        (candidatePages (routing.map Prod.fst) ((jarByPageOf allPages).map Prod.fst)
          (aiResults.map Prod.fst)).flatMap
          (pageContribution routing (jarByPageOf allPages) aiResults)
    ∧ ∀ p ∈ candidatePages (routing.map Prod.fst)
          ((jarByPageOf allPages).map Prod.fst) (aiResults.map Prod.fst),
        (pageContribution routing (jarByPageOf allPages) aiResults p).Sublist
          (mergeElements routing allPages aiResults).1 := by
  refine ⟨candidatePages_sorted _ _ _, fun p => mem_candidatePages _ _ _ p, ?_, ?_⟩
  · simp [mergeElements, mergeLoop_eq]
  · intro p hp
    rw [show (mergeElements routing allPages aiResults).1 =
        (candidatePages (routing.map Prod.fst) ((jarByPageOf allPages).map Prod.fst)
          (aiResults.map Prod.fst)).flatMap
          (pageContribution routing (jarByPageOf allPages) aiResults) by
      simp [mergeElements, mergeLoop_eq]]
    rw [List.flatMap_def]
    exact List.sublist_flatten_of_mem (List.mem_map_of_mem _ hp)

theorem c3_witness :
    (2 ∈ candidatePages (exRouting.map Prod.fst)
        ((jarByPageOf (some exAllPages)).map Prod.fst) (exAi.map Prod.fst)) ∧
    (pageContribution exRouting (jarByPageOf (some exAllPages)) exAi 2).Sublist
      (mergeElements exRouting (some exAllPages) exAi).1 := by
  have h := c3_candidate_union_and_order exRouting (some exAllPages) exAi
  exact ⟨by decide, h.2.2.2 2 (by decide)⟩

/-- C10: one-directional fallback.  A page routed `"fast"` explicitly, or
absent from the routing table, contributes exactly its fast-path bucket; the
contribution is the same whatever the AI results hold for that page (so
AI content there is ignored, and an empty fast bucket means an empty
contribution); and the warning log never mentions such a page. -/
theorem c10_fast_route_ignores_ai (routing : List (Int × String))
    (allPages : Option AllPages) (aiResults : List (Int × AiResult)) (p : Int)
    (hroute : alookup p routing = some "fast" ∨ alookup p routing = none) :
    pageContribution routing (jarByPageOf allPages) aiResults p =
      (alookup p (jarByPageOf allPages)).getD []
    ∧ (∀ aiResults2 : List (Int × AiResult),
        pageContribution routing (jarByPageOf allPages) aiResults2 p =
          pageContribution routing (jarByPageOf allPages) aiResults p)
    ∧ (alookup p (jarByPageOf allPages) = none →
        pageContribution routing (jarByPageOf allPages) aiResults p = [])
    ∧ p ∉ (mergeElements routing allPages aiResults).2 := by
  have hne : ¬ (alookup p routing).getD "fast" = "ai" := by
    rcases hroute with h | h <;> simp [h]
  refine ⟨by simp [pageContribution, hne], ?_, ?_, ?_⟩
  · intro aiResults2
    simp [pageContribution, hne]
  · intro h0
    simp [pageContribution, hne, h0]
  · have hw : pageWarns routing aiResults p = false := by
      simp [pageWarns, hne]
    have heq : (mergeElements routing allPages aiResults).2 =
        (candidatePages (routing.map Prod.fst) ((jarByPageOf allPages).map Prod.fst)
          (aiResults.map Prod.fst)).filter (pageWarns routing aiResults) := by
      simp [mergeElements, mergeLoop_eq]
    rw [heq]
    intro hmem
    exact absurd (List.mem_filter.1 hmem).2 (by simp [hw])

theorem c10_witness :
    (alookup 3 exRouting = some "fast" ∨ alookup 3 exRouting = none) ∧
    pageContribution exRouting (jarByPageOf (some exAllPages)) exAi 3 =
      (alookup 3 (jarByPageOf (some exAllPages))).getD [] ∧
    pageContribution exRouting (jarByPageOf (some exAllPages)) [(2, ⟨some [exA2]⟩)] 3 =
      pageContribution exRouting (jarByPageOf (some exAllPages)) exAi 3 ∧
    3 ∉ (mergeElements exRouting (some exAllPages) exAi).2 := by
  have h := c10_fast_route_ignores_ai exRouting (some exAllPages) exAi 3 (Or.inl (by decide))
  exact ⟨Or.inl (by decide), h.1, h.2.1 _, h.2.2.2⟩

/-- Stability of the modelled sort: the sublist of elements having any fixed
sort key is untouched by sorting. -/
theorem sortElements_filter_key (l : List Element) (k : Lex (Int × Lex (ℚ × ℚ))) :
    (sortElements l).filter (fun e => decide (sortKey e = k)) =
      l.filter (fun e => decide (sortKey e = k)) := by
  have hkey : ∀ a ∈ l.filter (fun e => decide (sortKey e = k)), sortKey a = k := by
    intro a ha
    have := (List.mem_filter.1 ha).2
    simpa using this
  have hpair : (l.filter (fun e => decide (sortKey e = k))).Pairwise elemLE := by
    refine List.pairwise_of_forall_mem_list ?_
    intro a ha b hb
    exact le_of_eq ((hkey a ha).trans (hkey b hb).symm)
  have hsub : (l.filter (fun e => decide (sortKey e = k))).Sublist (sortElements l) :=
    List.sublist_insertionSort hpair (List.filter_sublist l)
  have hsub2 := hsub.filter (fun e => decide (sortKey e = k))
  have hself : (l.filter (fun e => decide (sortKey e = k))).filter
      (fun e => decide (sortKey e = k)) = l.filter (fun e => decide (sortKey e = k)) :=
    List.filter_eq_self.2 (fun a ha => (List.mem_filter.1 ha).2)
  rw [hself] at hsub2
  have hperm : ((sortElements l).filter (fun e => decide (sortKey e = k))).Perm
      (l.filter (fun e => decide (sortKey e = k))) :=
    (List.perm_insertionSort elemLE l).filter _
  exact (hsub2.eq_of_length hperm.length_eq.symm).symm

/-- C4: `_sort_elements` returns a permutation of its input, sorted by the
tuple (page number, bbox y, bbox x) with missing data contributing 0 (the
key is `sortKey`), its length is preserved, and the sort is stable: the
elements carrying any given key appear in the same order as in the input. -/
theorem c4_sort_elements_contract (l : List Element) :
    (sortElements l).Perm l
    ∧ List.Sorted elemLE (sortElements l)
    ∧ (sortElements l).length = l.length
    ∧ ∀ k, (sortElements l).filter (fun e => decide (sortKey e = k)) =
        l.filter (fun e => decide (sortKey e = k)) :=
  ⟨List.perm_insertionSort elemLE l, List.sorted_insertionSort elemLE l,
    List.length_insertionSort elemLE l, fun k => sortElements_filter_key l k⟩

theorem assignIdsFrom_map_id (i : Int) (l : List Element) :
    (assignIdsFrom i l).map Element.id =
      (List.range l.length).map (fun (n : ℕ) => some (i + (n : Int))) := by
  induction l generalizing i with
  | nil => simp [assignIdsFrom]
  | cons e es ih =>
    have hr : (List.range (es.length + 1)).map (fun (n : ℕ) => some (i + (n : Int))) =
        some (i + ((0 : ℕ) : Int)) ::
          (List.range es.length).map (fun (m : ℕ) => some (i + ((m + 1 : ℕ) : Int))) := by
      rw [List.range_succ_eq_map, List.map_cons, List.map_map]
      rfl
    simp only [assignIdsFrom, List.map_cons, ih, List.length_cons, hr]
    congr 1
    · simp
    · refine List.map_congr_left ?_
      intro n _
      simp only [Option.some.injEq]
      push_cast
      ring

theorem assignIdsFrom_idem (i : Int) (l : List Element) :
    assignIdsFrom i (assignIdsFrom i l) = assignIdsFrom i l := by
  induction l generalizing i with
  | nil => rfl
  | cons e es ih => simp [assignIdsFrom, ih]

/-- C5: `_assign_ids` stamps the i-th element (1-based) with id `i`, so the
ids of the output read `[1, 2, ..., N]` in order; the list length is
preserved (the function is total, it cannot fail); and running it again on
its own output changes nothing. -/
theorem c5_assign_ids_contract (l : List Element) :
    (assignIds l).map Element.id =
      (List.range l.length).map (fun (n : ℕ) => some ((n : Int) + 1))
    ∧ (assignIds l).length = l.length
    ∧ assignIds (assignIds l) = assignIds l := by
  refine ⟨?_, ?_, assignIdsFrom_idem 1 l⟩
  · rw [assignIds, assignIdsFrom_map_id 1 l]
    refine List.map_congr_left ?_
    intro n _
    rw [add_comm]
  · have h := congrArg List.length (assignIdsFrom_map_id 1 l)
    rwa [List.length_map, List.length_map, List.length_range] at h

/-- The result header built wholly from a `document_info` object: each field
read from that object alone (missing text fields stay `none` — no per-field
fallback to any other source). -/
def metaOfDocInfo (d : DocInfo) : MergeResult :=
  { fileName := d.fileName.getD "", numberOfPages := d.numberOfPages.getD 0,
    author := d.author, title := d.title, creationDate := d.creationDate,
    modificationDate := d.modificationDate, kids := [] }

/-- The result header built wholly from the fast-path source's metadata. -/
def metaOfAllPages (ap : AllPages) : MergeResult :=
  { fileName := ap.fileName.getD "", numberOfPages := ap.numberOfPages.getD 0,
    author := ap.author, title := ap.title, creationDate := ap.creationDate,
    modificationDate := ap.modificationDate, kids := [] }

/-- The all-empty default header. -/
def defaultMeta : MergeResult :=
  { fileName := "", numberOfPages := 0, author := none, title := none,
    creationDate := none, modificationDate := none, kids := [] }

/-- A supplied-but-empty `document_info` dict: in Python it is falsy. -/
def emptyDocInfo : DocInfo := ⟨false, none, none, none, none, none, none⟩

def c6AllPages : AllPages := ⟨true, some "fast.pdf", some 3, some "A", none, none, none, none⟩

def c6DocInfo : DocInfo := ⟨true, some "doc.pdf", none, none, some "T", none, none⟩

/-- C6 counterexample: with a supplied (but empty, hence falsy) document-info
object and an available fast-path source, `_init_result` does NOT take the
metadata entirely from the supplied object — `if document_info:` is a Python
truthiness test, so the empty dict is skipped and the fast-path metadata
wins, contradicting the claim as stated. -/
theorem c6_counterexample :
    initResult (some emptyDocInfo) (some c6AllPages) ≠ metaOfDocInfo emptyDocInfo := by
  decide

/-- C6 (amended): whole-object metadata priority, with "given" and
"available" read as Python truthiness.  A truthy `document_info` wins
entirely (nulls and all); otherwise a truthy fast-path source wins entirely;
otherwise the all-empty defaults are used; and in every case the whole
header comes from exactly one of the three sources. -/
theorem c6_metadata_whole_object_priority (d : Option DocInfo) (ap : Option AllPages) :
    (∀ di, d = some di → di.truthy = true → initResult d ap = metaOfDocInfo di)
    ∧ ((d = none ∨ ∃ di, d = some di ∧ di.truthy = false) →
        (∀ api, ap = some api → api.truthy = true → initResult d ap = metaOfAllPages api)
        ∧ ((ap = none ∨ ∃ api, ap = some api ∧ api.truthy = false) →
            initResult d ap = defaultMeta))
    ∧ (initResult d ap = defaultMeta
        ∨ (∃ di, d = some di ∧ initResult d ap = metaOfDocInfo di)
        ∨ ∃ api, ap = some api ∧ initResult d ap = metaOfAllPages api) := by
  refine ⟨?_, ?_, ?_⟩
  · rintro di rfl htruthy
    simp [initResult, htruthy, metaOfDocInfo]
  · rintro hd
    have hno : initResult d ap = initResultNoInfo ap := by
      rcases hd with rfl | ⟨di, rfl, hf⟩
      · rfl
      · simp [initResult, hf]
    constructor
    · rintro api rfl htruthy
      simp [hno, initResultNoInfo, htruthy, metaOfAllPages]
    · rintro hap
      rcases hap with rfl | ⟨api, rfl, hf⟩
      · simp [hno, initResultNoInfo, defaultMeta]
      · simp [hno, initResultNoInfo, hf, defaultMeta]
  · rcases d with _ | di
    · rcases ap with _ | api
      · exact Or.inl rfl
      · by_cases h : api.truthy
        · exact Or.inr (Or.inr ⟨api, rfl, by simp [initResult, initResultNoInfo, h, metaOfAllPages]⟩)
        · exact Or.inl (by simp [initResult, initResultNoInfo, h, defaultMeta])
    · by_cases hd : di.truthy
      · exact Or.inr (Or.inl ⟨di, rfl, by simp [initResult, hd, metaOfDocInfo]⟩)
      · rcases ap with _ | api
        · exact Or.inl (by simp [initResult, initResultNoInfo, hd, defaultMeta])
        · by_cases h : api.truthy
          · exact Or.inr (Or.inr ⟨api, rfl,
              by simp [initResult, initResultNoInfo, hd, h, metaOfAllPages]⟩)
          · exact Or.inl (by simp [initResult, initResultNoInfo, hd, h, defaultMeta])

theorem c6_witness :
    (c6DocInfo.truthy = true ∧ c6AllPages.truthy = true ∧ emptyDocInfo.truthy = false) ∧
    initResult (some c6DocInfo) (some c6AllPages) = metaOfDocInfo c6DocInfo ∧
    initResult (some emptyDocInfo) (some c6AllPages) = metaOfAllPages c6AllPages := by
  refine ⟨⟨rfl, rfl, rfl⟩, ?_, ?_⟩
  · exact (c6_metadata_whole_object_priority (some c6DocInfo) (some c6AllPages)).1
      c6DocInfo rfl rfl
  · exact ((c6_metadata_whole_object_priority (some emptyDocInfo) (some c6AllPages)).2.1
      (Or.inr ⟨emptyDocInfo, rfl, rfl⟩)).1 c6AllPages rfl rfl

/-- Python `str.replace(c, r)` for a single-character needle: every
occurrence of `c` becomes `r`, scanning left to right. -/
def replaceChar (c : Char) (r : List Char) : List Char → List Char
  | [] => []
  | x :: xs => (if x = c then r else [x]) ++ replaceChar c r xs

/-- `_escape_html` (source lines 486-500) on the character list: the four
`replace` calls in source order (`&`, then `<`, `>`, `"`). -/
def escapeList (s : List Char) : List Char :=
  replaceChar '"' "&quot;".data
    (replaceChar '>' "&gt;".data
      (replaceChar '<' "&lt;".data
        (replaceChar '&' "&amp;".data s)))

/-- `_escape_html` as a `String → String` function, as in the source. -/
def escapeHtml (s : String) : String := String.mk (escapeList s.data)

/-- The per-character escaping table the spec describes: each of the four
special characters maps to its entity exactly once, all else unchanged. -/
def escapeChar (c : Char) : List Char :=
  if c = '&' then "&amp;".data
  else if c = '<' then "&lt;".data
  else if c = '>' then "&gt;".data
  else if c = '"' then "&quot;".data
  else [c]

/-- Modelled from the spec: standard HTML-entity unescaping is not part of
this repository, so the greedy left-to-right decoder of the four entities
`&amp; &lt; &gt; &quot;` stands in for "an HTML parser" in the round-trip
property. -/
def unescapeHtml : List Char → List Char
  | [] => []
  | c :: rest =>
    if c = '&' then
      match rest with
      | 'a' :: 'm' :: 'p' :: ';' :: t => '&' :: unescapeHtml t
      | 'l' :: 't' :: ';' :: t => '<' :: unescapeHtml t
      | 'g' :: 't' :: ';' :: t => '>' :: unescapeHtml t
      | 'q' :: 'u' :: 'o' :: 't' :: ';' :: t => '"' :: unescapeHtml t
      | r => c :: unescapeHtml r
    else c :: unescapeHtml rest
termination_by l => l.length
decreasing_by all_goals simp_arith

theorem replaceChar_append (c : Char) (r xs ys : List Char) :
    replaceChar c r (xs ++ ys) = replaceChar c r xs ++ replaceChar c r ys := by
  induction xs with
  | nil => rfl
  | cons x xs ih => simp [replaceChar, ih]

theorem escapeList_append (xs ys : List Char) :
    escapeList (xs ++ ys) = escapeList xs ++ escapeList ys := by
  simp [escapeList, replaceChar_append]

/-- The four sequential `replace` calls act as a single per-character pass:
entities introduced by an earlier `replace` are never touched again. -/
theorem escapeList_eq_flatMap (s : List Char) : escapeList s = s.flatMap escapeChar := by
  induction s with
  | nil => rfl
  | cons x xs ih =>
    have hsplit : escapeList (x :: xs) = escapeList [x] ++ escapeList xs := by
      simpa using escapeList_append [x] xs
    rw [hsplit, ih, List.flatMap_cons]
    congr 1
    by_cases h1 : x = '&'
    · subst h1; rfl
    · by_cases h2 : x = '<'
      · subst h2; rfl
      · by_cases h3 : x = '>'
        · subst h3; rfl
        · by_cases h4 : x = '"'
          · subst h4; rfl
          · simp [escapeList, replaceChar, escapeChar, h1, h2, h3, h4]

theorem unescapeHtml_amp (t : List Char) :
    unescapeHtml ('&' :: 'a' :: 'm' :: 'p' :: ';' :: t) = '&' :: unescapeHtml t := by
  simp [unescapeHtml]

theorem unescapeHtml_lt (t : List Char) :
    unescapeHtml ('&' :: 'l' :: 't' :: ';' :: t) = '<' :: unescapeHtml t := by
  simp [unescapeHtml]

theorem unescapeHtml_gt (t : List Char) :
    unescapeHtml ('&' :: 'g' :: 't' :: ';' :: t) = '>' :: unescapeHtml t := by
  simp [unescapeHtml]

theorem unescapeHtml_quot (t : List Char) :
    unescapeHtml ('&' :: 'q' :: 'u' :: 'o' :: 't' :: ';' :: t) = '"' :: unescapeHtml t := by
  simp [unescapeHtml]

theorem unescapeHtml_cons_ne (c : Char) (t : List Char) (h : c ≠ '&') :
    unescapeHtml (c :: t) = c :: unescapeHtml t := by
  rw [unescapeHtml.eq_def]
  simp [h]

theorem unescapeHtml_nil : unescapeHtml [] = [] := by
  rw [unescapeHtml.eq_def]

theorem unescapeHtml_flatMap_escapeChar (s : List Char) :
    unescapeHtml (s.flatMap escapeChar) = s := by
  induction s with
  | nil => simp [unescapeHtml_nil]
  | cons x xs ih =>
    rw [List.flatMap_cons]
    by_cases h1 : x = '&'
    · subst h1
      simpa [escapeChar, unescapeHtml_amp] using congrArg (fun l => '&' :: l) ih
    · by_cases h2 : x = '<'
      · subst h2
        simpa [escapeChar, unescapeHtml_lt] using congrArg (fun l => '<' :: l) ih
      · by_cases h3 : x = '>'
        · subst h3
          simpa [escapeChar, unescapeHtml_gt] using congrArg (fun l => '>' :: l) ih
        · by_cases h4 : x = '"'
          · subst h4
            simpa [escapeChar, unescapeHtml_quot] using congrArg (fun l => '"' :: l) ih
          · rw [show escapeChar x = [x] by simp [escapeChar, h1, h2, h3, h4]]
            rw [List.singleton_append, unescapeHtml_cons_ne x _ h1, ih]

/-- C7: `_escape_html` escapes each occurrence of the four special
characters exactly once — the four sequential `replace` calls equal one
per-character substitution pass, so entities introduced by the escaping are
never re-escaped — and standard entity unescaping recovers the original
text exactly. -/
theorem c7_escape_html_once_roundtrip (s : String) :
    escapeHtml s = String.mk (s.data.flatMap escapeChar)
    ∧ unescapeHtml (escapeHtml s).data = s.data := by
  constructor
  · exact congrArg String.mk (escapeList_eq_flatMap s.data)
  · show unescapeHtml (escapeList s.data) = s.data
    rw [escapeList_eq_flatMap]
    exact unescapeHtml_flatMap_escapeChar s.data

/-- One entry of a table element's `"cells"` list, with the three fields
`_table_to_markdown` reads (each defaulted via `.get`). -/
structure TableCell where
  row : Option Int
  column : Option Int
  content : Option String
deriving DecidableEq

/-- A table element as `_table_to_markdown` sees it. -/
structure TableElement where
  cells : Option (List TableCell)
  content : Option String
deriving DecidableEq

/-- The cell-organising loop of `_table_to_markdown` (source lines 359-368):
build the row-dict of col-dicts (assignment overwrites), tracking
`max_col = max(max_col, col)` from an initial 0. -/
def buildRows (cells : List TableCell) : List (Int × List (Int × String)) × Int :=
  cells.foldl
    (fun acc cell =>
      (dinsert (cell.row.getD 0)
        (dinsert (cell.column.getD 0) (cell.content.getD "")
          ((alookup (cell.row.getD 0) acc.1).getD [])) acc.1,
       max acc.2 (cell.column.getD 0)))
    ([], 0)

/-- Python `range(n)` over the integers (empty for `n ≤ 0`). -/
def intRange (n : Int) : List Int := (List.range n.toNat).map Int.ofNat

/-- Python `min` over a list of ints (callers guarantee nonempty). -/
def intMin : List Int → Int
  | [] => 0
  | x :: xs => xs.foldl min x

/-- Python `max` over a list of ints (callers guarantee nonempty). -/
def intMaxList : List Int → Int
  | [] => 0
  | x :: xs => xs.foldl max x

/-- `cell_content.replace("|", "\\|")` (source line 380). -/
def escapeCell (s : String) : String := String.mk (replaceChar '|' ['\\', '|'] s.data)

/-- One emitted table row (source lines 376-382): `max_col + 1` cells, the
missing ones empty, pipe-escaped and pipe-joined. -/
def mdRowLine (rows : List (Int × List (Int × String))) (maxCol : Int) (rowIdx : Int) : String :=
  "| " ++ String.intercalate " | "
    ((intRange (maxCol + 1)).map fun colIdx =>
      escapeCell ((alookup colIdx ((alookup rowIdx rows).getD [])).getD "")) ++ " |"

/-- The header-separator row (source line 386). -/
def mdSepLine (maxCol : Int) : String :=
  "| " ++ String.intercalate " | " (List.replicate (maxCol + 1).toNat "---") ++ " |"

/-- The line-emitting loop of `_table_to_markdown` (source lines 374-386):
rows in sorted key order, the separator emitted right after the row whose
index equals `min(rows.keys())`. -/
def tableLines (rows : List (Int × List (Int × String))) (maxCol : Int) : List String :=
  (List.insertionSort (fun a b : Int => a ≤ b) (rows.map Prod.fst)).flatMap fun rowIdx =>
    if rowIdx = intMin (rows.map Prod.fst) then [mdRowLine rows maxCol rowIdx, mdSepLine maxCol]
    else [mdRowLine rows maxCol rowIdx]

/-- `_table_to_markdown` (source lines 345-388). -/
def tableToMarkdown (t : TableElement) : String :=
  let cells := t.cells.getD []
  if cells = [] then t.content.getD ""
  else
    let rc := buildRows cells
    if rc.1 = [] then t.content.getD ""
    else String.intercalate "\n" (tableLines rc.1 rc.2)

/-- The distinct row indices present among the cells, ascending (the claim's
"for each row index present, in increasing order"). -/
def specRowKeys (cells : List TableCell) : List Int :=
  List.insertionSort (fun a b : Int => a ≤ b) ((cells.map fun c => c.row.getD 0).dedup)

/-- The grid width driver as the code actually computes it: the maximum of 0
and every column index seen. -/
def specMaxCol (cells : List TableCell) : Int :=
  max 0 (intMaxList (cells.map fun c => c.column.getD 0))

/-- The content at grid position `(r, c)`: the last cell written there, or
the empty string for a gap (the claim's "substituting the empty string for
any column not present"). -/
def specCellAt (cells : List TableCell) (r c : Int) : String :=
  match (cells.filter fun cl => cl.row.getD 0 == r && cl.column.getD 0 == c).getLast? with
  | some cl => cl.content.getD ""
  | none => ""

/-- A grid row as the claim describes it: `specMaxCol + 1` cells read from
the grid. -/
def specRowLine (cells : List TableCell) (r : Int) : String :=
  "| " ++ String.intercalate " | "
    ((intRange (specMaxCol cells + 1)).map fun c => escapeCell (specCellAt cells r c)) ++ " |"

/-- The claim's rendering: one line per row index present, ascending, with
exactly one separator placed right after the smallest row index's row. -/
def specLines (cells : List TableCell) : List String :=
  match specRowKeys cells with
  | [] => []
  | k :: ks => specRowLine cells k :: mdSepLine (specMaxCol cells) :: ks.map (specRowLine cells)

def c8NegCell : TableCell := ⟨some 0, some (-3), some "A"⟩

def c8NegTable : TableElement := ⟨some [c8NegCell], none⟩

/-- C8 counterexample: `max_col` is initialised to 0 and only ever raised,
so for a cell list whose only column index is -3 the code's `max_col` is 0,
not the "maximum column index seen" (-3) the claim specifies; the rendered
row has one cell, not "max_col + 1 = -2" of them. -/
theorem c8_counterexample :
    (buildRows [c8NegCell]).2 = 0
    ∧ intMaxList ([c8NegCell].map fun c => c.column.getD 0) = -3
    ∧ (buildRows [c8NegCell]).2 ≠ intMaxList ([c8NegCell].map fun c => c.column.getD 0)
    ∧ tableToMarkdown c8NegTable = "|  |\n| --- |" := by
  refine ⟨rfl, rfl, by decide, ?_⟩
  decide

/-- The row-dict update of one cell (the first component of the
`buildRows` fold step). -/
def rowStep (m : List (Int × List (Int × String))) (cell : TableCell) :
    List (Int × List (Int × String)) :=
  dinsert (cell.row.getD 0)
    (dinsert (cell.column.getD 0) (cell.content.getD "")
      ((alookup (cell.row.getD 0) m).getD [])) m

theorem buildRows_fst (cells : List TableCell) :
    (buildRows cells).1 = cells.foldl rowStep [] := by
  suffices h : ∀ acc : List (Int × List (Int × String)) × Int,
      (cells.foldl (fun acc cell =>
        (dinsert (cell.row.getD 0)
          (dinsert (cell.column.getD 0) (cell.content.getD "")
            ((alookup (cell.row.getD 0) acc.1).getD [])) acc.1,
         max acc.2 (cell.column.getD 0))) acc).1 = cells.foldl rowStep acc.1 by
    exact h ([], 0)
  induction cells with
  | nil => intro acc; rfl
  | cons c cs ih => intro acc; simp [List.foldl_cons, ih, rowStep]

theorem buildRows_snd (cells : List TableCell) :
    (buildRows cells).2 = (cells.map fun c => c.column.getD 0).foldl max 0 := by
  suffices h : ∀ acc : List (Int × List (Int × String)) × Int,
      (cells.foldl (fun acc cell =>
        (dinsert (cell.row.getD 0)
          (dinsert (cell.column.getD 0) (cell.content.getD "")
            ((alookup (cell.row.getD 0) acc.1).getD [])) acc.1,
         max acc.2 (cell.column.getD 0))) acc).2 =
        (cells.map fun c => c.column.getD 0).foldl max acc.2 by
    exact h ([], 0)
  induction cells with
  | nil => intro acc; rfl
  | cons c cs ih => intro acc; simp [List.foldl_cons, ih]

theorem foldl_max_eq (l : List Int) (a b : Int) :
    l.foldl max (max a b) = max a (l.foldl max b) := by
  induction l generalizing b with
  | nil => rfl
  | cons c l ih => rw [List.foldl_cons, List.foldl_cons, max_assoc, ih]

/-- The code's `max_col` equals the clamped maximum of the column indices. -/
theorem buildRows_maxCol (cells : List TableCell) (hne : cells ≠ []) :
    (buildRows cells).2 = specMaxCol cells := by
  obtain ⟨c, cs, rfl⟩ := List.exists_cons_of_ne_nil hne
  rw [buildRows_snd, specMaxCol]
  simp only [List.map_cons, List.foldl_cons, intMaxList]
  exact foldl_max_eq _ 0 _

theorem rowStep_keys (cells : List TableCell) (m : List (Int × List (Int × String))) (x : Int) :
    x ∈ (cells.foldl rowStep m).map Prod.fst ↔
      x ∈ m.map Prod.fst ∨ x ∈ cells.map (fun c => c.row.getD 0) := by
  induction cells generalizing m with
  | nil => simp
  | cons c cs ih =>
    rw [List.foldl_cons]
    rw [ih]
    simp only [rowStep, mem_keys_dinsert, List.map_cons, List.mem_cons]
    tauto

theorem rowStep_keys_nodup (cells : List TableCell) (m : List (Int × List (Int × String)))
    (h : (m.map Prod.fst).Nodup) : ((cells.foldl rowStep m).map Prod.fst).Nodup := by
  induction cells generalizing m with
  | nil => exact h
  | cons c cs ih =>
    rw [List.foldl_cons]
    exact ih _ (keys_nodup_dinsert _ _ _ h)

/-- The grid lookup of the built row-dict agrees with the declarative
last-write-wins cell table. -/
theorem rows_lookup (cells : List TableCell) (r c : Int) :
    (alookup c ((alookup r (cells.foldl rowStep [])).getD [])).getD "" = specCellAt cells r c := by
  induction cells using List.reverseRecOn with
  | nil => simp [alookup, specCellAt]
  | append_singleton cs cl ih =>
    rw [List.foldl_append, List.foldl_cons, List.foldl_nil]
    by_cases hr : cl.row.getD 0 = r
    · by_cases hcq : cl.column.getD 0 = c
      · rw [rowStep, hr, hcq, alookup_dinsert_self, Option.getD_some, alookup_dinsert_self,
          Option.getD_some]
        rw [specCellAt]
        rw [List.filter_append]
        rw [show List.filter (fun cl' => cl'.row.getD 0 == r && cl'.column.getD 0 == c) [cl] =
          [cl] by simp [List.filter_cons, hr, hcq]]
        rw [List.getLast?_concat]
      · rw [rowStep, hr, alookup_dinsert_self, Option.getD_some,
          alookup_dinsert_ne _ _ _ _ (fun hh => hcq hh.symm)]
        rw [ih]
        rw [specCellAt, specCellAt, List.filter_append]
        rw [show List.filter (fun cl' => cl'.row.getD 0 == r && cl'.column.getD 0 == c) [cl] =
          [] by simp [List.filter_cons, hcq]]
        rw [List.append_nil]
    · rw [rowStep, alookup_dinsert_ne _ _ _ _ (fun hh => hr hh.symm)]
      rw [ih]
      rw [specCellAt, specCellAt, List.filter_append]
      rw [show List.filter (fun cl' => cl'.row.getD 0 == r && cl'.column.getD 0 == c) [cl] =
        [] by simp [List.filter_cons, hr]]
      rw [List.append_nil]

theorem foldl_min_le_init (xs : List Int) (x : Int) : xs.foldl min x ≤ x := by
  induction xs generalizing x with
  | nil => exact le_refl x
  | cons y ys ih => exact le_trans (ih (min x y)) (min_le_left x y)

theorem foldl_min_le_mem (xs : List Int) (x : Int) : ∀ y ∈ xs, xs.foldl min x ≤ y := by
  induction xs generalizing x with
  | nil => intro y hy; simp at hy
  | cons z zs ih =>
    intro y hy
    rcases List.mem_cons.1 hy with rfl | hy
    · exact le_trans (foldl_min_le_init zs (min x y)) (min_le_right x y)
    · exact ih (min x z) y hy

theorem foldl_min_mem (xs : List Int) (x : Int) : xs.foldl min x = x ∨ xs.foldl min x ∈ xs := by
  induction xs generalizing x with
  | nil => exact Or.inl rfl
  | cons y ys ih =>
    rw [List.foldl_cons]
    rcases ih (min x y) with h | h
    · rcases min_choice x y with hm | hm
      · exact Or.inl (h.trans hm)
      · exact Or.inr (by rw [h, hm]; exact List.mem_cons_self y ys)
    · exact Or.inr (List.mem_cons_of_mem y h)

theorem intMin_mem (l : List Int) (h : l ≠ []) : intMin l ∈ l := by
  obtain ⟨x, xs, rfl⟩ := List.exists_cons_of_ne_nil h
  rw [intMin]
  rcases foldl_min_mem xs x with h1 | h1
  · rw [h1]; exact List.mem_cons_self x xs
  · exact List.mem_cons_of_mem x h1

theorem intMin_le (l : List Int) (x : Int) (hx : x ∈ l) : intMin l ≤ x := by
  cases l with
  | nil => simp at hx
  | cons y ys =>
    rw [intMin]
    rcases List.mem_cons.1 hx with rfl | h
    · exact foldl_min_le_init ys x
    · exact foldl_min_le_mem ys y x h

theorem sorted_nodup_ext (l1 l2 : List Int)
    (s1 : List.Sorted (fun a b : Int => a ≤ b) l1)
    (s2 : List.Sorted (fun a b : Int => a ≤ b) l2)
    (n1 : l1.Nodup) (n2 : l2.Nodup) (hmem : ∀ x, x ∈ l1 ↔ x ∈ l2) : l1 = l2 :=
  List.eq_of_perm_of_sorted ((List.perm_ext_iff_of_nodup n1 n2).2 hmem) s1 s2

/-- The sorted key list of the built row-dict is exactly the sorted list of
distinct row indices present among the cells. -/
theorem sortedKeys_eq (cells : List TableCell) :
    List.insertionSort (fun a b : Int => a ≤ b) (((buildRows cells).1).map Prod.fst) =
      specRowKeys cells := by
  apply sorted_nodup_ext
  · exact List.sorted_insertionSort _ _
  · exact List.sorted_insertionSort _ _
  · refine (List.perm_insertionSort _ _).nodup_iff.mpr ?_
    rw [buildRows_fst]
    exact rowStep_keys_nodup cells [] (by simp)
  · exact (List.perm_insertionSort _ _).nodup_iff.mpr (List.nodup_dedup _)
  · intro x
    rw [List.mem_insertionSort, buildRows_fst, rowStep_keys]
    simp [specRowKeys, List.mem_insertionSort]

theorem specRowKeys_head_min (cells : List TableCell) (k : Int) (ks : List Int)
    (h : specRowKeys cells = k :: ks) :
    intMin (((buildRows cells).1).map Prod.fst) = k := by
  have hmem_iff : ∀ x, x ∈ ((buildRows cells).1).map Prod.fst ↔ x ∈ k :: ks := by
    intro x
    rw [← h, ← sortedKeys_eq cells, List.mem_insertionSort]
  have hkeysne : ((buildRows cells).1).map Prod.fst ≠ [] := by
    intro h0
    have := (hmem_iff k).2 (List.mem_cons_self k ks)
    rw [h0] at this
    simp at this
  have hminmem : intMin (((buildRows cells).1).map Prod.fst) ∈ k :: ks :=
    (hmem_iff _).1 (intMin_mem _ hkeysne)
  have hkmem : k ∈ ((buildRows cells).1).map Prod.fst :=
    (hmem_iff k).2 (List.mem_cons_self k ks)
  have hsorted : List.Sorted (fun a b : Int => a ≤ b) (k :: ks) := by
    rw [← h, specRowKeys]
    exact List.sorted_insertionSort _ _
  have hle : ∀ x ∈ k :: ks, k ≤ x := by
    intro x hx
    rcases List.mem_cons.1 hx with rfl | hx
    · exact le_refl x
    · exact (List.sorted_cons.1 hsorted).1 x hx
  exact le_antisymm (intMin_le _ k hkmem) (hle _ hminmem)

theorem flatMap_no_sep (l : List Int) (m : Int) (row : Int → String) (sep : String)
    (h : ∀ x ∈ l, x ≠ m) :
    (l.flatMap fun ri => if ri = m then [row ri, sep] else [row ri]) = l.map row := by
  induction l with
  | nil => rfl
  | cons x xs ih =>
    rw [List.flatMap_cons, if_neg (h x (List.mem_cons_self x xs)),
      ih (fun y hy => h y (List.mem_cons_of_mem _ hy)), List.map_cons, List.singleton_append]

/-- C8 (amended): for a table element with a nonempty cell list,
`_table_to_markdown` renders exactly the declarative grid: one row per
distinct row index present, ascending, each with `max_col + 1` cells where
`max_col` is the maximum of 0 and all column indices seen, gaps rendered as
empty strings (never an error), and exactly one separator line placed right
after the smallest row index's row. -/
theorem c8_table_grid_rendering (t : TableElement) (cells : List TableCell)
    (hc : t.cells = some cells) (hne : cells ≠ []) :
    tableToMarkdown t = String.intercalate "\n" (specLines cells) := by
  have hrowsne : (buildRows cells).1 ≠ [] := by
    obtain ⟨c0, cs, rfl⟩ := List.exists_cons_of_ne_nil hne
    intro h0
    have hm : (c0.row.getD 0) ∈ ((buildRows (c0 :: cs)).1).map Prod.fst := by
      rw [buildRows_fst]
      exact (rowStep_keys _ _ _).2 (Or.inr (by simp))
    rw [h0] at hm
    simp at hm
  have hSRKne : specRowKeys cells ≠ [] := by
    intro h0
    rw [← sortedKeys_eq cells] at h0
    have hp := (List.perm_insertionSort (fun a b : Int => a ≤ b)
      (((buildRows cells).1).map Prod.fst)).symm
    rw [h0] at hp
    exact hrowsne (by simpa using hp.eq_nil)
  obtain ⟨k, ks, hSRK⟩ := List.exists_cons_of_ne_nil hSRKne
  have hmin : k = intMin (((buildRows cells).1).map Prod.fst) :=
    (specRowKeys_head_min cells k ks hSRK).symm
  have hrow : ∀ ri, mdRowLine (buildRows cells).1 (specMaxCol cells) ri =
      specRowLine cells ri := by
    intro ri
    rw [mdRowLine, specRowLine]
    have hmaplist : (intRange (specMaxCol cells + 1)).map
        (fun colIdx => escapeCell ((alookup colIdx
          ((alookup ri (buildRows cells).1).getD [])).getD "")) =
        (intRange (specMaxCol cells + 1)).map
          (fun c => escapeCell (specCellAt cells ri c)) := by
      refine List.map_congr_left (fun c0 _ => ?_)
      rw [buildRows_fst, rows_lookup]
    rw [hmaplist]
  have hsorted : List.Sorted (fun a b : Int => a ≤ b) (k :: ks) := by
    rw [← hSRK, specRowKeys]
    exact List.sorted_insertionSort _ _
  have hnd : (k :: ks).Nodup := by
    rw [← hSRK]
    exact (List.perm_insertionSort _ _).nodup_iff.mpr (List.nodup_dedup _)
  have hks : ∀ x ∈ ks, x ≠ intMin (((buildRows cells).1).map Prod.fst) := by
    intro x hx heq
    rw [← hmin] at heq
    exact (List.nodup_cons.1 hnd).1 (heq ▸ hx)
  have hspec : specLines cells =
      specRowLine cells k :: mdSepLine (specMaxCol cells) :: ks.map (specRowLine cells) := by
    simp only [specLines, hSRK]
  rw [tableToMarkdown]
  simp only [hc, Option.getD_some]
  rw [if_neg hne, if_neg hrowsne]
  congr 1
  rw [tableLines, sortedKeys_eq cells, hSRK, List.flatMap_cons, if_pos hmin,
    flatMap_no_sep ks _ _ _ hks, hspec, buildRows_maxCol cells hne]
  rw [hrow k]
  simp only [List.cons_append, List.nil_append, List.cons.injEq, true_and]
  exact List.map_congr_left (fun x _ => hrow x)

def c8CellA : TableCell := ⟨some 0, some 0, some "A"⟩

def c8CellB : TableCell := ⟨some 1, some 1, some "B"⟩

def c8Table : TableElement := ⟨some [c8CellA, c8CellB], none⟩

theorem c8_witness :
    (c8Table.cells = some [c8CellA, c8CellB] ∧ ([c8CellA, c8CellB] : List TableCell) ≠ []) ∧
    tableToMarkdown c8Table = String.intercalate "\n" (specLines [c8CellA, c8CellB]) ∧
    tableToMarkdown c8Table = "| A |  |\n| --- | --- |\n|  | B |" := by
  refine ⟨⟨rfl, by decide⟩, ?_, by decide⟩
  exact c8_table_grid_rendering c8Table [c8CellA, c8CellB] rfl (by decide)

/-- A heap of element objects: Python dicts are mutable and shared by
reference, so to talk about mutation of the caller's `ai_results` and
`all_pages` structures the merge is re-run over an explicit store, with
element lists holding references (`Nat`) instead of values.  The value-level
model above computes the same output values; this store model additionally
tracks object identity. -/
abbrev Heap := Nat → Element

/-- In-place field write: `heap[r] := e`. -/
def hset (h : Heap) (r : Nat) (e : Element) : Heap := fun n => if n = r then e else h n

/-- The grouping loop of `_merge_elements` over references. -/
def jarRefsByPage (h : Heap) (kids : List Nat) : List (Int × List Nat) :=
  kids.foldl (fun m r => dappend ((h r).pageNumber.getD 1) r m) []

/-- `element["page number"] = page_num` executed for each element of an AI
result (source line 205): a real mutation of the shared element objects. -/
def setPageFold (p : Int) (refs : List Nat) (h : Heap) : Heap :=
  refs.foldl (fun hh r => hset hh r { hh r with pageNumber := some p }) h

/-- The `_merge_elements` loop over the store: same branching as
`mergeLoop`, but AI elements are page-stamped in place and the output is the
list of references appended. -/
def mergeLoopSt (routing : List (Int × String)) (jarByPage : List (Int × List Nat))
    (aiResults : List (Int × List Nat)) : List Int → Heap → Heap × List Nat
  | [], h => (h, [])
  | p :: ps, h =>
    if (alookup p routing).getD "fast" = "ai" then
      match alookup (p - 1) aiResults with
      | some refs =>
        let rest := mergeLoopSt routing jarByPage aiResults ps (setPageFold p refs h)
        (rest.1, refs ++ rest.2)
      | none =>
        let rest := mergeLoopSt routing jarByPage aiResults ps h
        (rest.1, (alookup p jarByPage).getD [] ++ rest.2)
    else
      let rest := mergeLoopSt routing jarByPage aiResults ps h
      (rest.1, (alookup p jarByPage).getD [] ++ rest.2)

/-- The sort comparison read through the store. -/
def refLE (h : Heap) (a b : Nat) : Prop := sortKey (h a) ≤ sortKey (h b)

instance (h : Heap) : DecidableRel (refLE h) :=
  fun a b => inferInstanceAs (Decidable (sortKey (h a) ≤ sortKey (h b)))

/-- `_sort_elements` over references (reads the store, writes nothing). -/
def sortRefs (h : Heap) (refs : List Nat) : List Nat := List.insertionSort (refLE h) refs

/-- `_assign_ids` over the store: `element["id"] = idx` is an in-place write
on each output element (source lines 247-248). -/
def assignIdsStFrom (i : Int) : List Nat → Heap → Heap
  | [], h => h
  | r :: rs, h => assignIdsStFrom (i + 1) rs (hset h r { h r with id := some i })

/-- The merge pipeline over the store: group, loop, sort, stamp ids.
Returns the final store and the output references. -/
def mergeSt (routing : List (Int × String)) (jarKids : List Nat)
    (aiResults : List (Int × List Nat)) (h : Heap) : Heap × List Nat :=
  let jar := jarRefsByPage h jarKids
  let pages := candidatePages (routing.map Prod.fst) (jar.map Prod.fst)
    (aiResults.map Prod.fst)
  let res := mergeLoopSt routing jar aiResults pages h
  let sortedRefs := sortRefs res.1 res.2
  (assignIdsStFrom 1 sortedRefs res.1, sortedRefs)

theorem setPageFold_frame (p : Int) (refs : List Nat) (h : Heap) (r : Nat) :
    ((setPageFold p refs h r).content = (h r).content
      ∧ (setPageFold p refs h r).boundingBox = (h r).boundingBox
      ∧ (setPageFold p refs h r).id = (h r).id)
    ∧ (r ∉ refs → setPageFold p refs h r = h r) := by
  induction refs generalizing h with
  | nil => exact ⟨⟨rfl, rfl, rfl⟩, fun _ => rfl⟩
  | cons r0 rs ih =>
    have hstep : ∀ n, (hset h r0 { h r0 with pageNumber := some p } n).content = (h n).content
        ∧ (hset h r0 { h r0 with pageNumber := some p } n).boundingBox = (h n).boundingBox
        ∧ (hset h r0 { h r0 with pageNumber := some p } n).id = (h n).id := by
      intro n
      by_cases hn : n = r0 <;> simp [hset, hn]
    constructor
    · obtain ⟨⟨h1, h2, h3⟩, _⟩ := ih (hset h r0 { h r0 with pageNumber := some p })
      exact ⟨h1.trans (hstep r).1, h2.trans (hstep r).2.1, h3.trans (hstep r).2.2⟩
    · intro hmem
      have hne : r ≠ r0 := fun hh => hmem (hh ▸ List.mem_cons_self r0 rs)
      have hrest : r ∉ rs := fun hh => hmem (List.mem_cons_of_mem r0 hh)
      obtain ⟨_, hfr⟩ := ih (hset h r0 { h r0 with pageNumber := some p })
      have hgoal : setPageFold p rs (hset h r0 { h r0 with pageNumber := some p }) r = h r := by
        rw [hfr hrest]
        simp [hset, hne]
      exact hgoal

theorem mergeLoopSt_frame (routing : List (Int × String)) (jar : List (Int × List Nat))
    (ai : List (Int × List Nat)) (ps : List Int) (h : Heap) (r : Nat) :
    (((mergeLoopSt routing jar ai ps h).1 r).content = (h r).content
      ∧ ((mergeLoopSt routing jar ai ps h).1 r).boundingBox = (h r).boundingBox
      ∧ ((mergeLoopSt routing jar ai ps h).1 r).id = (h r).id)
    ∧ (r ∉ (mergeLoopSt routing jar ai ps h).2 →
        (mergeLoopSt routing jar ai ps h).1 r = h r) := by
  induction ps generalizing h with
  | nil => exact ⟨⟨rfl, rfl, rfl⟩, fun _ => rfl⟩
  | cons p ps ih =>
    by_cases hroute : (alookup p routing).getD "fast" = "ai"
    · cases hai : alookup (p - 1) ai with
      | some refs =>
        simp only [mergeLoopSt, hroute, if_true, hai]
        obtain ⟨⟨hc, hb, hid⟩, hf⟩ := ih (setPageFold p refs h)
        obtain ⟨⟨sc, sb, sid⟩, sf⟩ := setPageFold_frame p refs h r
        refine ⟨⟨hc.trans sc, hb.trans sb, hid.trans sid⟩, ?_⟩
        intro hmem
        rw [List.mem_append] at hmem
        push_neg at hmem
        rw [hf hmem.2, sf hmem.1]
      | none =>
        simp only [mergeLoopSt, hroute, if_true, hai]
        obtain ⟨⟨hc, hb, hid⟩, hf⟩ := ih h
        refine ⟨⟨hc, hb, hid⟩, ?_⟩
        intro hmem
        rw [List.mem_append] at hmem
        push_neg at hmem
        exact hf hmem.2
    · simp only [mergeLoopSt, hroute, if_false]
      obtain ⟨⟨hc, hb, hid⟩, hf⟩ := ih h
      refine ⟨⟨hc, hb, hid⟩, ?_⟩
      intro hmem
      rw [List.mem_append] at hmem
      push_neg at hmem
      exact hf hmem.2

theorem assignIdsStFrom_frame (i : Int) (rs : List Nat) (h : Heap) (r : Nat) :
    ((assignIdsStFrom i rs h r).content = (h r).content
      ∧ (assignIdsStFrom i rs h r).boundingBox = (h r).boundingBox
      ∧ (assignIdsStFrom i rs h r).pageNumber = (h r).pageNumber)
    ∧ (r ∉ rs → assignIdsStFrom i rs h r = h r) := by
  induction rs generalizing i h with
  | nil => exact ⟨⟨rfl, rfl, rfl⟩, fun _ => rfl⟩
  | cons r0 rs ih =>
    have hstep : ∀ n, (hset h r0 { h r0 with id := some i } n).content = (h n).content
        ∧ (hset h r0 { h r0 with id := some i } n).boundingBox = (h n).boundingBox
        ∧ (hset h r0 { h r0 with id := some i } n).pageNumber = (h n).pageNumber := by
      intro n
      by_cases hn : n = r0 <;> simp [hset, hn]
    constructor
    · obtain ⟨⟨h1, h2, h3⟩, _⟩ := ih (i + 1) (hset h r0 { h r0 with id := some i })
      exact ⟨h1.trans (hstep r).1, h2.trans (hstep r).2.1, h3.trans (hstep r).2.2⟩
    · intro hmem
      have hne : r ≠ r0 := fun hh => hmem (hh ▸ List.mem_cons_self r0 rs)
      have hrest : r ∉ rs := fun hh => hmem (List.mem_cons_of_mem r0 hh)
      obtain ⟨_, hfr⟩ := ih (i + 1) (hset h r0 { h r0 with id := some i })
      have hgoal : assignIdsStFrom (i + 1) rs (hset h r0 { h r0 with id := some i }) r = h r := by
        rw [hfr hrest]
        simp [hset, hne]
      exact hgoal

/-- C9 (amended): the merge is NOT pure with respect to the shared element
objects — it writes `"page number"` on every AI-taken element and `"id"` on
every output element, in place — but those are the only writes: every
element's `content` and `bounding box` are never written, and any element
object not referenced by the merged output is completely untouched.  The
routing table, the page buckets and the `ai_results` key structure are only
read. -/
theorem c9_merge_mutation_frame (routing : List (Int × String)) (jarKids : List Nat)
    (aiResults : List (Int × List Nat)) (h : Heap) (r : Nat) :
    (((mergeSt routing jarKids aiResults h).1 r).content = (h r).content
      ∧ ((mergeSt routing jarKids aiResults h).1 r).boundingBox = (h r).boundingBox)
    ∧ (r ∉ (mergeSt routing jarKids aiResults h).2 →
        (mergeSt routing jarKids aiResults h).1 r = h r) := by
  obtain ⟨⟨lc, lb, lid⟩, lf⟩ := mergeLoopSt_frame routing (jarRefsByPage h jarKids) aiResults
    (candidatePages (routing.map Prod.fst) ((jarRefsByPage h jarKids).map Prod.fst)
      (aiResults.map Prod.fst)) h r
  obtain ⟨⟨ac, ab, apg⟩, af⟩ := assignIdsStFrom_frame 1
    (sortRefs
      (mergeLoopSt routing (jarRefsByPage h jarKids) aiResults
        (candidatePages (routing.map Prod.fst) ((jarRefsByPage h jarKids).map Prod.fst)
          (aiResults.map Prod.fst)) h).1
      (mergeLoopSt routing (jarRefsByPage h jarKids) aiResults
        (candidatePages (routing.map Prod.fst) ((jarRefsByPage h jarKids).map Prod.fst)
          (aiResults.map Prod.fst)) h).2)
    (mergeLoopSt routing (jarRefsByPage h jarKids) aiResults
      (candidatePages (routing.map Prod.fst) ((jarRefsByPage h jarKids).map Prod.fst)
        (aiResults.map Prod.fst)) h).1 r
  refine ⟨⟨ac.trans lc, ab.trans lb⟩, ?_⟩
  intro hmem
  have h2 : r ∉ (mergeLoopSt routing (jarRefsByPage h jarKids) aiResults
      (candidatePages (routing.map Prod.fst) ((jarRefsByPage h jarKids).map Prod.fst)
        (aiResults.map Prod.fst)) h).2 :=
    fun hh => hmem ((List.mem_insertionSort _).2 hh)
  have h3 := af hmem
  have h4 := lf h2
  exact h3.trans h4

def c9Elem : Element := ⟨some 5, none, some 99, some "x"⟩

def c9Heap : Heap := fun _ => c9Elem

def c9Routing : List (Int × String) := [(1, "ai")]

def c9Ai : List (Int × List Nat) := [(0, [0])]

/-- C9 counterexample: one page routed `"ai"` whose AI result holds one
element object.  After the merge, that object — still held by the caller's
`ai_results` mapping — has had its `"page number"` rewritten from 5 to 1 and
its `"id"` rewritten from 99 to 1: the inputs are mutated, so the merge is
not a pure transform over them as the claim states. -/
theorem c9_counterexample :
    (mergeSt c9Routing [] c9Ai c9Heap).1 0 ≠ c9Heap 0
    ∧ ((mergeSt c9Routing [] c9Ai c9Heap).1 0).pageNumber = some 1
    ∧ ((mergeSt c9Routing [] c9Ai c9Heap).1 0).id = some 1
    ∧ (c9Heap 0).pageNumber = some 5 ∧ (c9Heap 0).id = some 99 := by
  refine ⟨by decide, by decide, by decide, rfl, rfl⟩

theorem c9_witness :
    ((5 : Nat) ∉ (mergeSt c9Routing [] c9Ai c9Heap).2) ∧
    (mergeSt c9Routing [] c9Ai c9Heap).1 5 = c9Heap 5 ∧
    ((mergeSt c9Routing [] c9Ai c9Heap).1 0).content = (c9Heap 0).content := by
  have h0 := c9_merge_mutation_frame c9Routing [] c9Ai c9Heap 0
  have h5 := c9_merge_mutation_frame c9Routing [] c9Ai c9Heap 5
  exact ⟨by decide, h5.2 (by decide), h0.1.1⟩
